import Mathlib

/-!
Verification of the `interpol` image interpolator.

The development shallowly embeds the program's core: IEEE-754 binary64
arithmetic is modelled as exact rationals with an explicit
round-to-nearest-even step after every operation, pixels are triples of
8-bit channels, and the stateful `Interpolator` iterator is a step
function on an explicit state record.
-/

namespace Interpol

/-! ## A model of IEEE-754 binary64 arithmetic over ℚ

A finite double is a rational of the form `m * 2^(e-52)` with `|m| < 2^53`
and `e ≥ -1022` (subnormals use the fixed scale `2^(-1074)`).  Every
arithmetic operation computes the exact rational result and then rounds it
to the nearest such value, ties to even mantissa.  All quantities reached
by this program stay far below the overflow threshold `2^1024`, so
infinities and NaN never arise and are not modelled.

The primitives are written over core `Rat` operations (`mkRat`,
`Rat.divInt`, `Rat.floor`) so that concrete instances reduce inside the
kernel. -/

/-- Floor of the base-2 logarithm, fuel-driven so that the kernel can
reduce it on literals. -/
def log2fuel : ℕ → ℕ → ℕ
  | 0, _ => 0
  | fuel + 1, n => if n < 2 then 0 else log2fuel fuel (n / 2) + 1

/-- `nlog2 n` is `⌊log₂ n⌋` for `n ≥ 1` (and `0` at `0`). -/
def nlog2 (n : ℕ) : ℕ := log2fuel n n

/-- `2^e` as a rational, for an integer (possibly negative) exponent. -/
def pow2z (e : ℤ) : ℚ :=
  if 0 ≤ e then ((2 ^ e.toNat : ℕ) : ℚ) else mkRat 1 (2 ^ (-e).toNat)

/-- Exact division of rationals, phrased through `Rat.divInt` so that it
reduces in the kernel. -/
def qdiv (x y : ℚ) : ℚ := Rat.divInt (x.num * y.den) (x.den * y.num)

/-- For `q > 0`, the unique `e` with `2^e ≤ q < 2^(e+1)`. -/
def qexp (q : ℚ) : ℤ :=
  let e0 : ℤ := (nlog2 q.num.natAbs : ℤ) - (nlog2 q.den : ℤ)
  if pow2z e0 ≤ q then e0 else e0 - 1

/-- Round a rational to the nearest integer, ties to the even integer. -/
def rne (r : ℚ) : ℤ :=
  let n := r.floor
  if r - (n : ℚ) < mkRat 1 2 then n
  else if mkRat 1 2 < r - (n : ℚ) then n + 1
  else if n % 2 = 0 then n else n + 1

/-- Round an exact rational to the nearest representable binary64 value
(round to nearest, ties to even).  Faithful for all finite doubles; the
overflow range `≥ 2^1024` is never reached by this program and is not
special-cased. -/
def roundF64 (q : ℚ) : ℚ :=
  if q = 0 then 0
  else
    let s : ℚ := if q < 0 then -1 else 1
    let a : ℚ := if q < 0 then -q else q
    let g : ℤ := max (qexp a) (-1022) - 52
    s * (rne (qdiv a (pow2z g)) : ℚ) * pow2z g

/-- Binary64 addition: exact sum, then rounding. -/
def fadd (x y : ℚ) : ℚ := roundF64 (x + y)

/-- Binary64 subtraction: exact difference, then rounding. -/
def fsub (x y : ℚ) : ℚ := roundF64 (x - y)

/-- Binary64 multiplication: exact product, then rounding. -/
def fmul (x y : ℚ) : ℚ := roundF64 (x * y)

/-- Binary64 division: exact quotient, then rounding. -/
def fdiv (x y : ℚ) : ℚ := roundF64 (qdiv x y)

/-- `f64::trunc`: drop the fractional part, toward zero.  Exact on every
double, hence no rounding step. -/
def ftrunc (x : ℚ) : ℚ :=
  if x < 0 then -((Rat.floor (-x) : ℤ) : ℚ) else ((Rat.floor x : ℤ) : ℚ)

/-- `usize as f64`: conversion of a machine integer to the nearest double. -/
def f64ofNat (n : ℕ) : ℚ := roundF64 (n : ℚ)

/-- An 8-bit channel value, as in Rust's `u8`. -/
abbrev U8 := Fin 256

/-- `f64 as u8` in Rust: truncate toward zero and saturate to `[0, 255]`. -/
def f64toU8 (x : ℚ) : U8 :=
  if x < 0 then ⟨0, Nat.succ_pos 255⟩
  else ⟨min 255 (Rat.floor x).toNat, Nat.lt_succ_of_le (Nat.min_le_left _ _)⟩

/-! ## Pixels and the blend function -/

/-- `rgb::RGB<u8>`: three independent 8-bit channels. -/
structure Pixel where
  r : U8
  g : U8
  b : U8
deriving DecidableEq, Repr

/-- `fn smooth(mu: f64, c1: Pixel, c2: Pixel) -> Pixel`: per-channel linear
blend `c1*t1 + c2*t2` with `t2 = mu - mu.trunc()` and `t1 = 1.0 - t2`,
each channel computed in binary64 and cast back to `u8` (`u8 as f64` is
exact, so the channel inputs enter as their rational values). -/
def smooth (mu : ℚ) (c1 c2 : Pixel) : Pixel :=
  let t2 := fsub mu (ftrunc mu)
  let t1 := fsub 1 t2
  { r := f64toU8 (fadd (fmul ((c1.r : ℕ) : ℚ) t1) (fmul ((c2.r : ℕ) : ℚ) t2))
    g := f64toU8 (fadd (fmul ((c1.g : ℕ) : ℚ) t1) (fmul ((c2.g : ℕ) : ℚ) t2))
    b := f64toU8 (fadd (fmul ((c1.b : ℕ) : ℚ) t1) (fmul ((c2.b : ℕ) : ℚ) t2)) }

/-! ## Images -/

/-- `struct Image { data: Vec<Pixel>, width: u32, height: u32 }`. -/
structure Image where
  data : List Pixel
  width : ℕ
  height : ℕ
deriving DecidableEq, Repr

/-- `Image::new_from_parts`.  The source compares `data.len() as u32 ==
width * height`: the length is truncated to `u32` and the product is
computed in `u32` (wrapping in release builds), hence the comparison is
modulo `2^32`. -/
def Image.new_from_parts (data : List Pixel) (width height : ℕ) :
    Except String Image :=
  if data.length % 2 ^ 32 = width * height % 2 ^ 32 then
    .ok { data := data, width := width, height := height }
  else
    .error "Data must match the dimensions given in width and height."

/-! ## The stateful interpolator -/

/-- `struct Interpolator`: the images together with the mutable cursor
(`image_no`, `frame_no`) and the per-segment step count. -/
structure Interpolator where
  images : List Image
  image_no : ℕ
  frame_no : ℕ
  steps_per_interpolation : ℕ
deriving DecidableEq, Repr

/-- `Interpolator::new`. -/
def Interpolator.new (images : List Image) (steps : ℕ) : Interpolator :=
  { images := images, image_no := 0, frame_no := 0,
    steps_per_interpolation := steps }

/-- Result of one call to `Interpolator::next`: a yielded frame with the
successor state, iterator exhaustion (`none` in Rust) with the successor
state, or a panic of the `unwrap` inside the blend arm. -/
inductive NextResult where
  | yield (img : Image) (s : Interpolator)
  | done (s : Interpolator)
  | crash
deriving DecidableEq, Repr

/-- `<Interpolator as Iterator>::next`, as a pure step function. -/
def Interpolator.next (it : Interpolator) : NextResult :=
  let frame_num := it.frame_no
  if frame_num ≥ it.steps_per_interpolation then
    let s := { it with frame_no := 1, image_no := it.image_no + 1 }
    match s.images[s.image_no]? with
    | some img => .yield img s
    | none => .done s
  else
    match it.images[it.image_no]? with
    | some start =>
      match it.images[it.image_no + 1]? with
      | some stop =>
        let mu := fdiv (f64ofNat frame_num) (f64ofNat it.steps_per_interpolation)
        let data := (start.data.zip stop.data).map fun c => smooth mu c.1 c.2
        match Image.new_from_parts data start.width start.height with
        | .ok img => .yield img { it with frame_no := it.frame_no + 1 }
        | .error _ => .crash
      | none => .done { it with frame_no := it.frame_no + 1 }
    | none => .done { it with frame_no := it.frame_no + 1 }

/-- Run `k` calls of `next`, requiring every call to yield a frame;
returns the yielded frames and the state after them. -/
def produce (it : Interpolator) : ℕ → Option (List Image × Interpolator)
  | 0 => some ([], it)
  | k + 1 =>
    match it.next with
    | .yield img s =>
      match produce s k with
      | some (l, s2) => some (img :: l, s2)
      | none => none
    | _ => none

/-- The frame yielded by the `(k+1)`-st call of `next` (0-indexed `k`),
when the first `k` calls all yield. -/
def nthFrame (it : Interpolator) (k : ℕ) : Option Image :=
  match produce it k with
  | some (_, s) =>
    match s.next with
    | .yield img _ => some img
    | _ => none
  | none => none

/-- The state after `k` calls of `next`, or `none` if some call panicked;
exhausted calls keep stepping, as Rust permits calling `next` after
`None`. -/
def afterCalls (it : Interpolator) : ℕ → Option Interpolator
  | 0 => some it
  | k + 1 =>
    match afterCalls it k with
    | some s =>
      match s.next with
      | .yield _ s2 => some s2
      | .done s2 => some s2
      | .crash => none
    | none => none

/-! ## Closed forms used by the proofs -/

/-- Placeholder image for total list indexing. -/
def dImage : Image := { data := [], width := 0, height := 0 }

/-- The image produced by the blend arm of `next`: elementwise `smooth`
over the zipped pixel buffers, dimensions taken from the first image. -/
def blendImages (mu : ℚ) (a b : Image) : Image :=
  { data := (a.data.zip b.data).map fun c => smooth mu c.1 c.2,
    width := a.width, height := a.height }

/-- The frame the iterator emits at global index `k` (for `steps ≥ 1`):
an exact copy at interior segment boundaries, the blend arm elsewhere
(including `k = 0`, which the code blends with `mu = 0`). -/
def frameVal (images : List Image) (steps k : ℕ) : Image :=
  if k % steps = 0 ∧ k ≠ 0 then images.getD (k / steps) dImage
  else
    blendImages (fdiv (f64ofNat (k % steps)) (f64ofNat steps))
      (images.getD (k / steps) dImage) (images.getD (k / steps + 1) dImage)

/-- Modelled from the spec: the stateless mapping from a global frame
index to the output frame — `images[segment]` when `local == 0`, and
otherwise the elementwise blend `smooth(local/steps, images[segment],
images[segment+1])`. -/
def specFrame (images : List Image) (steps k : ℕ) : Image :=
  let segment := k / steps
  let l := k % steps
  if l = 0 then images.getD segment dImage
  else
    blendImages (fdiv (f64ofNat l) (f64ofNat steps))
      (images.getD segment dImage) (images.getD (segment + 1) dImage)

/-- Modelled from the spec: the pixel-blend contract of §4.1 — each
channel is `a*(1-fraction) + b*fraction` computed in floating point and
truncated to `u8`. -/
def smoothSpec (mu : ℚ) (c1 c2 : Pixel) : Pixel :=
  { r := f64toU8 (fadd (fmul ((c1.r : ℕ) : ℚ) (fsub 1 mu)) (fmul ((c2.r : ℕ) : ℚ) mu))
    g := f64toU8 (fadd (fmul ((c1.g : ℕ) : ℚ) (fsub 1 mu)) (fmul ((c2.g : ℕ) : ℚ) mu))
    b := f64toU8 (fadd (fmul ((c1.b : ℕ) : ℚ) (fsub 1 mu)) (fmul ((c2.b : ℕ) : ℚ) mu)) }

/-- The iterator state immediately before the `(k+1)`-st call of `next`
during a well-formed run with `steps ≥ 1`. -/
def stateAt (images : List Image) (steps k : ℕ) : Interpolator :=
  if k = 0 then Interpolator.new images steps
  else
    { images := images, image_no := (k - 1) / steps,
      frame_no := (k - 1) % steps + 1, steps_per_interpolation := steps }

/-- Well-formedness of an interpolation run's image list: at least two
images, all of dimensions `w × h` with a correctly sized pixel buffer. -/
def WF (w h : ℕ) (images : List Image) : Prop :=
  2 ≤ images.length ∧
    ∀ im ∈ images, im.width = w ∧ im.height = h ∧ im.data.length = w * h

/-! ## Basic facts about the float model -/

set_option maxRecDepth 100000

lemma rat_floor_eq (q : ℚ) : Rat.floor q = ⌊q⌋ := rfl

lemma roundF64_zero : roundF64 0 = 0 := by
  simp [roundF64]

lemma roundF64_one : roundF64 1 = 1 := by
  with_unfolding_all decide

/-- Rounding fixes every 8-bit integer value. -/
lemma roundF64_u8 (x : U8) : roundF64 ((x : ℕ) : ℚ) = ((x : ℕ) : ℚ) := by
  revert x
  with_unfolding_all decide

/-- Casting an 8-bit integer value back to `u8` is the identity. -/
lemma f64toU8_u8 (x : U8) : f64toU8 ((x : ℕ) : ℚ) = x := by
  have h0 : ¬((x : ℕ) : ℚ) < 0 := not_lt.mpr (by positivity)
  have h1 : (Rat.floor ((x : ℕ) : ℚ)) = (x : ℕ) := by
    rw [rat_floor_eq, Int.floor_natCast]
  simp only [f64toU8, h0, if_false, h1, Int.toNat_natCast]
  exact Fin.ext (Nat.min_eq_right (Nat.le_of_lt_succ x.isLt))

lemma ftrunc_zero : ftrunc 0 = 0 := by
  have : ¬(0 : ℚ) < 0 := lt_irrefl 0
  simp [ftrunc, this, rat_floor_eq]

/-- Blending with fraction `0` returns the first pixel exactly, channel
for channel. -/
lemma smooth_zero (c1 c2 : Pixel) : smooth 0 c1 c2 = c1 := by
  have ht2 : fsub 0 (ftrunc 0) = 0 := by
    rw [ftrunc_zero, fsub, sub_zero, roundF64_zero]
  have ht1 : fsub 1 (0 : ℚ) = 1 := by
    rw [fsub, sub_zero, roundF64_one]
  have chan : ∀ x y : U8,
      f64toU8 (fadd (fmul ((x : ℕ) : ℚ) 1) (fmul ((y : ℕ) : ℚ) 0)) = x := by
    intro x y
    have hm1 : fmul ((x : ℕ) : ℚ) 1 = ((x : ℕ) : ℚ) := by
      rw [fmul, mul_one, roundF64_u8]
    have hm0 : fmul ((y : ℕ) : ℚ) 0 = 0 := by
      rw [fmul, mul_zero, roundF64_zero]
    rw [hm1, hm0, fadd, add_zero, roundF64_u8, f64toU8_u8]
  show Pixel.mk _ _ _ = c1
  rw [ht2, ht1]
  cases c1
  simp [chan]

/-- The blend arm at `mu = 0` copies the left pixel buffer. -/
lemma zip_map_smooth_zero (l1 l2 : List Pixel) (h : l1.length = l2.length) :
    (l1.zip l2).map (fun c => smooth 0 c.1 c.2) = l1 := by
  simp only [smooth_zero]
  exact List.map_fst_zip l1 l2 (le_of_eq h)

/-- The `mu` the code passes to `smooth` on the very first frame is `0`. -/
lemma fdiv_zero_left (y : ℚ) : fdiv 0 y = 0 := by
  have : qdiv 0 y = 0 := by
    simp [qdiv, Rat.zero_divInt]
  rw [fdiv, this, roundF64_zero]

/-! ## Stepping lemmas for the iterator -/

lemma new_from_parts_ok (data : List Pixel) (w h : ℕ)
    (hl : data.length = w * h) :
    Image.new_from_parts data w h = .ok { data := data, width := w, height := h } := by
  simp [Image.new_from_parts, hl]

/-- The boundary arm: once `frame_no` reaches `steps`, the cursor moves to
the next image and yields it verbatim (if it exists). -/
lemma next_boundary_yield (images : List Image) (s i f : ℕ) (hf : s ≤ f)
    (img : Image) (h1 : images[i + 1]? = some img) :
    (Interpolator.mk images i f s).next =
      .yield img (Interpolator.mk images (i + 1) 1 s) := by
  simp [Interpolator.next, hf, h1]

lemma next_boundary_done (images : List Image) (s i f : ℕ) (hf : s ≤ f)
    (h1 : images[i + 1]? = none) :
    (Interpolator.mk images i f s).next =
      .done (Interpolator.mk images (i + 1) 1 s) := by
  simp [Interpolator.next, hf, h1]

/-- The blend arm: with `frame_no < steps` and both segment endpoints
present and well-sized, `next` yields the elementwise blend. -/
lemma next_blend (images : List Image) (s i f : ℕ) (hf : f < s)
    (i0 i1 : Image) (h0 : images[i]? = some i0) (h1 : images[i + 1]? = some i1)
    (hd0 : i0.data.length = i0.width * i0.height)
    (hd1 : i1.data.length = i0.width * i0.height) :
    (Interpolator.mk images i f s).next =
      .yield (blendImages (fdiv (f64ofNat f) (f64ofNat s)) i0 i1)
        (Interpolator.mk images i (f + 1) s) := by
  have hnf : ¬ s ≤ f := not_le.mpr hf
  have hlen : ((i0.data.zip i1.data).map
      (fun c => smooth (fdiv (f64ofNat f) (f64ofNat s)) c.1 c.2)).length =
      i0.width * i0.height := by
    rw [List.length_map, List.length_zip, hd0, hd1, Nat.min_self]
  simp only [Interpolator.next, ge_iff_le, hnf, if_false, h0, h1]
  rw [new_from_parts_ok _ _ _ hlen]
  rfl

lemma next_blend_done (images : List Image) (s i f : ℕ) (hf : f < s)
    (i0 : Image) (h0 : images[i]? = some i0) (h1 : images[i + 1]? = none) :
    (Interpolator.mk images i f s).next =
      .done (Interpolator.mk images i (f + 1) s) := by
  have hnf : ¬ s ≤ f := not_le.mpr hf
  simp [Interpolator.next, hnf, h0, h1]

/-! ### Arithmetic of the cursor -/

lemma cursor_mod_ne_zero {s k : ℕ} (hs : 1 ≤ s) (hr : k % s ≠ 0) :
    (k - 1) % s + 1 = k % s ∧ (k - 1) / s = k / s := by
  have hs0 : 0 < s := hs
  have hd : s * (k / s) + k % s = k := Nat.div_add_mod k s
  have hr1 : 1 ≤ k % s := Nat.one_le_iff_ne_zero.mpr hr
  have hlt : k % s < s := Nat.mod_lt _ hs0
  have hk1 : k - 1 = s * (k / s) + (k % s - 1) := by omega
  have e1 : (k % s - 1) % s = k % s - 1 := Nat.mod_eq_of_lt (by omega)
  have e2 : (k % s - 1) / s = 0 := Nat.div_eq_of_lt (by omega)
  constructor
  · rw [hk1, Nat.mul_add_mod, e1]
    omega
  · rw [hk1, Nat.mul_add_div hs0, e2, Nat.add_zero]

lemma cursor_mod_zero {s k : ℕ} (hs : 1 ≤ s) (hk : 1 ≤ k) (hr : k % s = 0) :
    (k - 1) % s = s - 1 ∧ (k - 1) / s + 1 = k / s := by
  have hs0 : 0 < s := hs
  have hd : s * (k / s) + k % s = k := Nat.div_add_mod k s
  have hq : 1 ≤ k / s := by
    rcases Nat.eq_zero_or_pos (k / s) with h | h
    · rw [h, Nat.mul_zero, hr] at hd; omega
    · exact h
  have hmul : s * (k / s - 1) + s = s * (k / s) := by
    have := Nat.mul_sub s (k / s) 1
    have hle : s * 1 ≤ s * (k / s) := Nat.mul_le_mul_left s hq
    omega
  have hk1 : k - 1 = s * (k / s - 1) + (s - 1) := by omega
  have e1 : (s - 1) % s = s - 1 := Nat.mod_eq_of_lt (by omega)
  have e2 : (s - 1) / s = 0 := Nat.div_eq_of_lt (by omega)
  constructor
  · rw [hk1, Nat.mul_add_mod, e1]
  · rw [hk1, Nat.mul_add_div hs0, e2, Nat.add_zero]
    omega

/-! ### The step invariant -/

lemma wf_dims {w h : ℕ} {images : List Image}
    (hdims : ∀ im ∈ images, im.width = w ∧ im.height = h ∧ im.data.length = w * h)
    {i : ℕ} (hi : i < images.length) :
    (images.getD i dImage).width = w ∧ (images.getD i dImage).height = h ∧
      (images.getD i dImage).data.length = w * h := by
  rw [List.getD_eq_getElem images dImage hi]
  exact hdims _ (images.getElem_mem hi)

lemma getElem?_eq_getD {images : List Image} {i : ℕ} (hi : i < images.length) :
    images[i]? = some (images.getD i dImage) := by
  rw [List.getElem?_eq_getElem hi, List.getD_eq_getElem images dImage hi]

/-- One call of `next` at cursor position `k` of a well-formed run yields
exactly the closed-form frame and moves the cursor to position `k + 1`. -/
lemma next_stateAt {w h : ℕ} {images : List Image} {s k : ℕ}
    (hwf : WF w h images) (hs : 1 ≤ s) (hk : k ≤ (images.length - 1) * s) :
    (stateAt images s k).next =
      .yield (frameVal images s k) (stateAt images s (k + 1)) := by
  obtain ⟨hn, hdims⟩ := hwf
  have hs0 : 0 < s := hs
  by_cases hk0 : k = 0
  · subst hk0
    have h0lt : 0 < images.length := by omega
    have h1lt : 1 < images.length := by omega
    obtain ⟨hw0, hh0, hl0⟩ := wf_dims hdims h0lt
    obtain ⟨hw1, hh1, hl1⟩ := wf_dims hdims h1lt
    have hstep : (Interpolator.mk images 0 0 s).next =
        .yield (blendImages (fdiv (f64ofNat 0) (f64ofNat s))
            (images.getD 0 dImage) (images.getD 1 dImage))
          (Interpolator.mk images 0 1 s) :=
      next_blend images s 0 0 hs0 _ _ (getElem?_eq_getD h0lt)
        (getElem?_eq_getD h1lt) (by rw [hl0, hw0, hh0])
        (by rw [hl1, hw0, hh0])
    have e0 : stateAt images s 0 = Interpolator.mk images 0 0 s := rfl
    have e1 : stateAt images s 1 = Interpolator.mk images 0 1 s := by
      simp [stateAt]
    have e2 : frameVal images s 0 =
        blendImages (fdiv (f64ofNat 0) (f64ofNat s))
          (images.getD 0 dImage) (images.getD 1 dImage) := by
      simp [frameVal]
    rw [e0, e1, e2, hstep]
  -- k ≥ 1 : the state is the explicit cursor record
  · have hk1 : 1 ≤ k := Nat.one_le_iff_ne_zero.mpr hk0
    have est : stateAt images s k = Interpolator.mk images ((k - 1) / s)
        ((k - 1) % s + 1) s := by
      simp [stateAt, hk0]
    by_cases hr : k % s = 0
    -- interior boundary: exact copy of images[k / s]
    · obtain ⟨em, ed⟩ := cursor_mod_zero hs hk1 hr
      have hq1 : 1 ≤ k / s := by
        rcases Nat.eq_zero_or_pos (k / s) with h | h
        · have := Nat.div_add_mod k s
          rw [h, hr] at this; omega
        · exact h
      have hqn : k / s ≤ images.length - 1 := by
        have h1 : k / s ≤ (images.length - 1) * s / s := Nat.div_le_div_right hk
        rwa [Nat.mul_div_cancel _ hs0] at h1
      have hqlt : k / s < images.length := by omega
      have hstep : (Interpolator.mk images ((k - 1) / s) ((k - 1) % s + 1) s).next =
          .yield (images.getD (k / s) dImage)
            (Interpolator.mk images ((k - 1) / s + 1) 1 s) := by
        apply next_boundary_yield images s ((k - 1) / s) ((k - 1) % s + 1)
          (by rw [em]; omega)
        rw [ed]
        exact getElem?_eq_getD hqlt
      have e1 : stateAt images s (k + 1) =
          Interpolator.mk images ((k - 1) / s + 1) 1 s := by
        have h1 : (k + 1 - 1) / s = (k - 1) / s + 1 := by
          rw [Nat.add_sub_cancel, ← ed]
        have h2 : (k + 1 - 1) % s + 1 = 1 := by
          rw [Nat.add_sub_cancel, hr]
        simp only [stateAt, Nat.succ_ne_zero, if_false, h1, h2]
      have e2 : frameVal images s k = images.getD (k / s) dImage := by
        simp [frameVal, hr, hk0]
      rw [est, e1, e2, hstep]
    -- interior of a segment: the blend arm
    · obtain ⟨em, ed⟩ := cursor_mod_ne_zero hs hr
      have hklt : k < (images.length - 1) * s := by
        rcases Nat.lt_or_ge k ((images.length - 1) * s) with h | h
        · exact h
        · exfalso
          have : k = (images.length - 1) * s := by omega
          rw [this, Nat.mul_mod_left] at hr
          exact hr rfl
      have hqlt : k / s < images.length - 1 :=
        (Nat.div_lt_iff_lt_mul hs0).mpr hklt
      have hq0 : k / s < images.length := by omega
      have hq1 : k / s + 1 < images.length := by omega
      obtain ⟨hw0, hh0, hl0⟩ := wf_dims hdims hq0
      obtain ⟨hw1, hh1, hl1⟩ := wf_dims hdims hq1
      have hstep : (Interpolator.mk images ((k - 1) / s) ((k - 1) % s + 1) s).next =
          .yield (blendImages (fdiv (f64ofNat (k % s)) (f64ofNat s))
              (images.getD (k / s) dImage) (images.getD (k / s + 1) dImage))
            (Interpolator.mk images ((k - 1) / s) ((k - 1) % s + 1 + 1) s) := by
        rw [ed, em]
        exact next_blend images s (k / s) (k % s) (Nat.mod_lt _ hs0) _ _
          (getElem?_eq_getD hq0) (getElem?_eq_getD hq1)
          (by rw [hl0, hw0, hh0]) (by rw [hl1, hw0, hh0])
      have e1 : stateAt images s (k + 1) =
          Interpolator.mk images ((k - 1) / s) ((k - 1) % s + 1 + 1) s := by
        have h1 : (k + 1 - 1) / s = (k - 1) / s := by
          rw [Nat.add_sub_cancel, ed]
        have h2 : (k + 1 - 1) % s + 1 = (k - 1) % s + 1 + 1 := by
          rw [Nat.add_sub_cancel, ← em]
        simp only [stateAt, Nat.succ_ne_zero, if_false, h1, h2]
      have e2 : frameVal images s k =
          blendImages (fdiv (f64ofNat (k % s)) (f64ofNat s))
            (images.getD (k / s) dImage) (images.getD (k / s + 1) dImage) := by
        simp [frameVal, hr]
      rw [est, e1, e2, hstep]

/-- After the final frame the iterator is exhausted: the next call
returns `None`. -/
lemma next_final {w h : ℕ} {images : List Image} {s : ℕ}
    (hwf : WF w h images) (hs : 1 ≤ s) :
    ∃ st, (stateAt images s ((images.length - 1) * s + 1)).next =
      NextResult.done st := by
  obtain ⟨hn, hdims⟩ := hwf
  have hs0 : 0 < s := hs
  have est : stateAt images s ((images.length - 1) * s + 1) =
      Interpolator.mk images (images.length - 1) 1 s := by
    have h1 : ((images.length - 1) * s + 1 - 1) / s = images.length - 1 := by
      rw [Nat.add_sub_cancel, Nat.mul_div_cancel _ hs0]
    have h2 : ((images.length - 1) * s + 1 - 1) % s + 1 = 1 := by
      rw [Nat.add_sub_cancel, Nat.mul_mod_left]
    simp only [stateAt, Nat.succ_ne_zero, if_false, h1, h2]
  have hnone : images[images.length - 1 + 1]? = none :=
    List.getElem?_eq_none (by omega)
  rcases Nat.lt_or_ge 1 s with hs2 | hs1
  · -- steps ≥ 2 : the blend arm runs out of a right endpoint
    have hlt : images.length - 1 < images.length := by omega
    refine ⟨Interpolator.mk images (images.length - 1) 2 s, ?_⟩
    rw [est]
    exact next_blend_done images s (images.length - 1) 1 hs2 _
      (getElem?_eq_getD hlt) hnone
  · -- steps = 1 : the boundary arm walks off the end of the list
    have hs1' : s ≤ 1 := hs1
    refine ⟨Interpolator.mk images (images.length - 1 + 1) 1 s, ?_⟩
    rw [est]
    exact next_boundary_done images s (images.length - 1) 1 hs1' hnone

/-- Closed form for a well-formed run: `m` calls starting at cursor
position `j` yield the frames `j, …, j+m-1` and leave the cursor at
`j + m`. -/
lemma produce_stateAt {w h : ℕ} {images : List Image} {s : ℕ}
    (hwf : WF w h images) (hs : 1 ≤ s) :
    ∀ m j, j + m ≤ (images.length - 1) * s + 1 →
      produce (stateAt images s j) m =
        some ((List.range' j m).map (frameVal images s), stateAt images s (j + m))
  | 0, j, _ => by simp [produce]
  | m + 1, j, hjm => by
    have hj : j ≤ (images.length - 1) * s := by omega
    have hnext := next_stateAt hwf hs hj
    have hrec := produce_stateAt hwf hs m (j + 1) (by omega)
    simp only [produce, hnext, hrec]
    have : List.range' j (m + 1) = j :: List.range' (j + 1) m :=
      List.range'_succ j m 1
    rw [this]
    simp only [List.map_cons, Option.some.injEq, Prod.mk.injEq]
    exact ⟨trivial, by rw [show j + 1 + m = j + (m + 1) by omega]⟩

/-- The frame the code emits agrees with the spec's stateless formula:
at `k = 0` the code's `mu = 0` blend reproduces `images[0]` exactly. -/
lemma frameVal_eq_specFrame {w h : ℕ} {images : List Image} {s k : ℕ}
    (hwf : WF w h images) :
    frameVal images s k = specFrame images s k := by
  obtain ⟨hn, hdims⟩ := hwf
  by_cases hr : k % s = 0
  · by_cases hk0 : k = 0
    · subst hk0
      have h0lt : 0 < images.length := by omega
      have h1lt : 1 < images.length := by omega
      obtain ⟨hw0, hh0, hl0⟩ := wf_dims hdims h0lt
      obtain ⟨hw1, hh1, hl1⟩ := wf_dims hdims h1lt
      have hmu : fdiv (f64ofNat 0) (f64ofNat s) = 0 := by
        rw [f64ofNat, Nat.cast_zero, roundF64_zero, fdiv_zero_left]
      have hblend : blendImages 0 (images.getD 0 dImage) (images.getD 1 dImage)
          = images.getD 0 dImage := by
        unfold blendImages
        rw [zip_map_smooth_zero _ _ (by rw [hl0, hl1])]
      simp only [frameVal, specFrame, Nat.zero_mod, Nat.zero_div,
        if_true, ne_eq, not_true_eq_false, and_false, if_false]
      show blendImages (fdiv (f64ofNat 0) (f64ofNat s))
          (images.getD 0 dImage) (images.getD 1 dImage) = images.getD 0 dImage
      rw [hmu, hblend]
    · simp only [frameVal, specFrame, hr, hk0, ne_eq, not_false_eq_true,
        and_true, if_true]
  · simp only [frameVal, specFrame, hr, false_and, if_false]

/-! ### Steps-equal-zero machinery (for the `steps = 0` corner) -/

/-- Reachable states of a `steps = 0` run. -/
def state0 (images : List Image) (j : ℕ) : Interpolator :=
  if j = 0 then Interpolator.new images 0 else Interpolator.mk images j 1 0

lemma produce_state0 (images : List Image) :
    ∀ m j, j + m ≤ images.length - 1 →
      produce (state0 images j) m =
        some ((List.range' j m).map (fun i => images.getD (i + 1) dImage),
          state0 images (j + m))
  | 0, j, _ => by simp [produce]
  | m + 1, j, hjm => by
    have hn1 : j + 1 < images.length := by omega
    have hstep : (state0 images j).next =
        .yield (images.getD (j + 1) dImage) (Interpolator.mk images (j + 1) 1 0) := by
      have h1 : images[j + 1]? = some (images.getD (j + 1) dImage) :=
        getElem?_eq_getD hn1
      by_cases hj : j = 0
      · subst hj
        exact next_boundary_yield images 0 0 0 (Nat.zero_le 0) _ h1
      · have e : state0 images j = Interpolator.mk images j 1 0 := by
          simp [state0, hj]
        rw [e]
        exact next_boundary_yield images 0 j 1 (Nat.zero_le 1) _ h1
    have hrec := produce_state0 images m (j + 1) (by omega)
    have hs0 : state0 images (j + 1) = Interpolator.mk images (j + 1) 1 0 := by
      simp [state0]
    rw [hs0] at hrec
    simp only [produce, hstep, hrec]
    have : List.range' j (m + 1) = j :: List.range' (j + 1) m :=
      List.range'_succ j m 1
    rw [this]
    simp only [List.map_cons, Option.some.injEq, Prod.mk.injEq]
    refine ⟨trivial, ?_⟩
    rw [show j + 1 + m = j + (m + 1) by omega]

lemma range'_map_getD_tail (images : List Image) :
    (List.range' 0 (images.length - 1)).map (fun i => images.getD (i + 1) dImage)
      = images.tail := by
  apply List.ext_getElem
  · simp
  · intro i h1 h2
    have hr : i < (List.range' 0 (images.length - 1)).length := by
      simpa using h1
    have hlt : i + 1 < images.length := by
      have := List.length_range' 0 (images.length - 1) 1
      simp at h1
      omega
    rw [List.getElem_map, List.getElem_range', List.getElem_tail,
      List.getD_eq_getElem images dImage (by omega)]
    congr 1
    omega

/-! ### No-panic machinery -/

/-- `next` never panics from a state whose image list is well-sized, and
it never changes the image list. -/
lemma next_safe {w h : ℕ} (it : Interpolator)
    (hdims : ∀ im ∈ it.images, im.width = w ∧ im.height = h ∧
      im.data.length = w * h) :
    (it.next ≠ .crash) ∧
      (∀ img s2, it.next = .yield img s2 → s2.images = it.images) ∧
      (∀ s2, it.next = .done s2 → s2.images = it.images) := by
  by_cases hge : it.steps_per_interpolation ≤ it.frame_no
  · cases h1 : it.images[it.image_no + 1]? with
    | some img =>
      have heq : it.next = .yield img
          (Interpolator.mk it.images (it.image_no + 1) 1
            it.steps_per_interpolation) :=
        next_boundary_yield it.images _ it.image_no it.frame_no hge img h1
      rw [heq]
      exact ⟨by simp, fun img2 s2 h => by
        simp only [NextResult.yield.injEq] at h
        rw [← h.2], fun s2 h => by simp at h⟩
    | none =>
      have heq : it.next = .done
          (Interpolator.mk it.images (it.image_no + 1) 1
            it.steps_per_interpolation) :=
        next_boundary_done it.images _ it.image_no it.frame_no hge h1
      rw [heq]
      exact ⟨by simp, fun img2 s2 h => by simp at h, fun s2 h => by
        simp only [NextResult.done.injEq] at h
        rw [← h]⟩
  · have hlt : it.frame_no < it.steps_per_interpolation := not_le.mp hge
    cases h0 : it.images[it.image_no]? with
    | none =>
      have heq : it.next = .done
          (Interpolator.mk it.images it.image_no (it.frame_no + 1)
            it.steps_per_interpolation) := by
        have hnf : ¬ it.steps_per_interpolation ≤ it.frame_no := hge
        show (Interpolator.mk it.images it.image_no it.frame_no
          it.steps_per_interpolation).next = _
        simp [Interpolator.next, hnf, h0]
      rw [heq]
      exact ⟨by simp, fun img2 s2 h => by simp at h, fun s2 h => by
        simp only [NextResult.done.injEq] at h
        rw [← h]⟩
    | some start =>
      cases h1 : it.images[it.image_no + 1]? with
      | none =>
        have heq : it.next = .done
            (Interpolator.mk it.images it.image_no (it.frame_no + 1)
              it.steps_per_interpolation) :=
          next_blend_done it.images _ it.image_no it.frame_no hlt start h0 h1
        rw [heq]
        exact ⟨by simp, fun img2 s2 h => by simp at h, fun s2 h => by
          simp only [NextResult.done.injEq] at h
          rw [← h]⟩
      | some stop =>
        obtain ⟨hw0, hh0, hl0⟩ := hdims start (List.getElem?_mem h0)
        obtain ⟨hw1, hh1, hl1⟩ := hdims stop (List.getElem?_mem h1)
        have heq : it.next = .yield
            (blendImages (fdiv (f64ofNat it.frame_no)
              (f64ofNat it.steps_per_interpolation)) start stop)
            (Interpolator.mk it.images it.image_no (it.frame_no + 1)
              it.steps_per_interpolation) :=
          next_blend it.images _ it.image_no it.frame_no hlt start stop h0 h1
            (by rw [hl0, hw0, hh0]) (by rw [hl1, hw0, hh0])
        rw [heq]
        exact ⟨by simp, fun img2 s2 h => by
          simp only [NextResult.yield.injEq] at h
          rw [← h.2], fun s2 h => by simp at h⟩

lemma afterCalls_safe {w h : ℕ} {images : List Image} {steps : ℕ}
    (hdims : ∀ im ∈ images, im.width = w ∧ im.height = h ∧
      im.data.length = w * h) :
    ∀ k, ∃ st, afterCalls (Interpolator.new images steps) k = some st ∧
      st.images = images
  | 0 => ⟨Interpolator.new images steps, rfl, rfl⟩
  | k + 1 => by
    obtain ⟨st, hst, him⟩ := @afterCalls_safe w h images steps hdims k
    have hd : ∀ im ∈ st.images, im.width = w ∧ im.height = h ∧
        im.data.length = w * h := him ▸ hdims
    obtain ⟨hcrash, hyield, hdone⟩ := next_safe st hd
    cases hnext : st.next with
    | yield img s2 =>
      exact ⟨s2, by simp [afterCalls, hst, hnext],
        (hyield img s2 hnext).trans him⟩
    | done s2 =>
      exact ⟨s2, by simp [afterCalls, hst, hnext],
        (hdone s2 hnext).trans him⟩
    | crash => exact absurd hnext hcrash

/-! ## Concrete images used by witnesses -/

/-- An all-black 2×2 image. -/
def blackImage : Image := { data := List.replicate 4 ⟨0, 0, 0⟩, width := 2, height := 2 }

/-- An all-white 2×2 image. -/
def whiteImage : Image := { data := List.replicate 4 ⟨255, 255, 255⟩, width := 2, height := 2 }

/-- A uniform mid-grey 2×2 image, `(127,127,127)` everywhere. -/
def greyImage : Image := { data := List.replicate 4 ⟨127, 127, 127⟩, width := 2, height := 2 }

/-! ## Claims -/

/-- C1: for every list of `n ≥ 2` images of identical width and height and
every `steps ≥ 1`, the `k`-th frame yielded by the stateful `Interpolator`
iterator (`k ≤ (n-1)*steps`) equals, pixel for pixel, the stateless
formula: `images[segment]` when `local = 0` and otherwise the elementwise
blend `smooth(local/steps, images[segment], images[segment+1])`, where
`segment = k / steps` and `local = k % steps`. -/
theorem C1_stateful_refines_stateless {w h : ℕ} {images : List Image}
    {s k : ℕ} (hwf : WF w h images) (hs : 1 ≤ s)
    (hk : k ≤ (images.length - 1) * s) :
    nthFrame (Interpolator.new images s) k = some (specFrame images s k) := by
  have hp := produce_stateAt hwf hs k 0 (by omega)
  rw [show stateAt images s 0 = Interpolator.new images s from rfl,
    Nat.zero_add] at hp
  have hnext := next_stateAt hwf hs hk
  simp only [nthFrame, hp, hnext]
  rw [frameVal_eq_specFrame hwf]

theorem C1_witness :
    WF 2 2 [blackImage, whiteImage] ∧ 1 ≤ 2 ∧
      1 ≤ ([blackImage, whiteImage].length - 1) * 2 ∧
      nthFrame (Interpolator.new [blackImage, whiteImage] 2) 1 =
        some (specFrame [blackImage, whiteImage] 2 1) :=
  ⟨by unfold WF; exact ⟨by norm_num, by decide⟩, by norm_num, by norm_num,
    C1_stateful_refines_stateless (w := 2) (h := 2)
      (by unfold WF; exact ⟨by norm_num, by decide⟩) (by norm_num) (by norm_num)⟩

/-- C2: for every list of `n ≥ 2` equal-dimension images and every
`steps ≥ 1`, the iterator yields exactly `(n-1)*steps + 1` frames before
first returning `None`. -/
theorem C2_total_count {w h : ℕ} {images : List Image} {s : ℕ}
    (hwf : WF w h images) (hs : 1 ≤ s) :
    ∃ frames st,
      produce (Interpolator.new images s) ((images.length - 1) * s + 1) =
        some (frames, st) ∧
      frames.length = (images.length - 1) * s + 1 ∧
      ∃ st2, st.next = NextResult.done st2 := by
  have hp := produce_stateAt hwf hs ((images.length - 1) * s + 1) 0 (by omega)
  rw [show stateAt images s 0 = Interpolator.new images s from rfl,
    Nat.zero_add] at hp
  exact ⟨_, _, hp, by simp, next_final hwf hs⟩

theorem C2_witness :
    WF 2 2 [blackImage, whiteImage] ∧ 1 ≤ 1 ∧
      ∃ frames st,
        produce (Interpolator.new [blackImage, whiteImage] 1)
            (([blackImage, whiteImage].length - 1) * 1 + 1) =
          some (frames, st) ∧
        frames.length = ([blackImage, whiteImage].length - 1) * 1 + 1 ∧
        ∃ st2, st.next = NextResult.done st2 :=
  ⟨by unfold WF; exact ⟨by norm_num, by decide⟩, le_refl 1,
    C2_total_count (w := 2) (h := 2)
      (by unfold WF; exact ⟨by norm_num, by decide⟩) (le_refl 1)⟩

/-- C3: for every valid input and every frame index `k` with
`k % steps = 0`, the output frame is exactly the source image
`images[k / steps]`; in particular index `0` gives `images[0]` and index
`(n-1)*steps` gives the last image. -/
theorem C3_boundary_frames_exact {w h : ℕ} {images : List Image} {s k : ℕ}
    (hwf : WF w h images) (hs : 1 ≤ s) (hk : k ≤ (images.length - 1) * s)
    (hr : k % s = 0) :
    nthFrame (Interpolator.new images s) k = images[k / s]? := by
  have hp := produce_stateAt hwf hs k 0 (by omega)
  rw [show stateAt images s 0 = Interpolator.new images s from rfl,
    Nat.zero_add] at hp
  have hnext := next_stateAt hwf hs hk
  simp only [nthFrame, hp, hnext]
  rw [frameVal_eq_specFrame hwf]
  have hs0 : 0 < s := hs
  have hqlt : k / s < images.length := by
    have h1 : k / s ≤ (images.length - 1) * s / s := Nat.div_le_div_right hk
    rw [Nat.mul_div_cancel _ hs0] at h1
    have := hwf.1
    omega
  rw [getElem?_eq_getD hqlt]
  simp [specFrame, hr]

theorem C3_witness :
    WF 2 2 [blackImage, whiteImage] ∧ 1 ≤ 2 ∧
      2 ≤ ([blackImage, whiteImage].length - 1) * 2 ∧ 2 % 2 = 0 ∧
      nthFrame (Interpolator.new [blackImage, whiteImage] 2) 2 =
        [blackImage, whiteImage][2 / 2]? :=
  ⟨by unfold WF; exact ⟨by norm_num, by decide⟩, by norm_num, by norm_num,
    by norm_num,
    C3_boundary_frames_exact (w := 2) (h := 2)
      (by unfold WF; exact ⟨by norm_num, by decide⟩) (by norm_num)
      (by norm_num) (by norm_num)⟩

/-- C4: for every pair of pixels `a` and `b`, `smooth(0.0, a, b)` returns
`a` exactly, channel for channel. -/
theorem C4_blend_zero_is_left (a b : Pixel) : smooth 0 a b = a :=
  smooth_zero a b

/-- C7: for an all-black and an all-white 2×2 image with `steps = 2`, the
iterator yields exactly three frames — all-black, all-`(127,127,127)`,
all-white, in that order — and then `None`. -/
theorem C7_black_white_scenario :
    produce (Interpolator.new [blackImage, whiteImage] 2) 3 =
      some ([blackImage, greyImage, whiteImage],
        Interpolator.mk [blackImage, whiteImage] 1 1 2) ∧
    (Interpolator.mk [blackImage, whiteImage] 1 1 2).next =
      NextResult.done (Interpolator.mk [blackImage, whiteImage] 1 2 2) := by
  with_unfolding_all decide

/-- C8: under the precondition that every image has the same dimensions
and a correctly sized buffer, the `unwrap` inside `Interpolator::next`
never panics, no matter how often `next` is called. -/
theorem C8_no_panic {w h : ℕ} {images : List Image} {steps : ℕ}
    (hdims : ∀ im ∈ images, im.width = w ∧ im.height = h ∧
      im.data.length = w * h) :
    ∀ k, afterCalls (Interpolator.new images steps) k ≠ none := by
  intro k
  obtain ⟨st, hst, _⟩ := afterCalls_safe hdims k
  rw [hst]
  exact Option.some_ne_none st

theorem C8_witness :
    (∀ im ∈ [blackImage, whiteImage], im.width = 2 ∧ im.height = 2 ∧
      im.data.length = 2 * 2) ∧
    afterCalls (Interpolator.new [blackImage, whiteImage] 2) 5 ≠ none :=
  ⟨by decide, C8_no_panic (w := 2) (h := 2) (by decide) 5⟩

/-- C9: with `steps_per_interpolation = 0`, the iterator yields exactly
the `n-1` frames `images[1], …, images[n-1]` in order — omitting
`images[0]` — and then `None`, rather than the single frame the count
formula would prescribe. -/
theorem C9_zero_steps {images : List Image} (hn : 2 ≤ images.length) :
    ∃ st, produce (Interpolator.new images 0) (images.length - 1) =
        some (images.tail, st) ∧ ∃ st2, st.next = NextResult.done st2 := by
  have hp := produce_state0 images (images.length - 1) 0 (by omega)
  rw [show state0 images 0 = Interpolator.new images 0 from rfl,
    Nat.zero_add, range'_map_getD_tail] at hp
  have hne : images.length - 1 ≠ 0 := by omega
  have hs0 : state0 images (images.length - 1) =
      Interpolator.mk images (images.length - 1) 1 0 := by
    simp [state0, hne]
  rw [hs0] at hp
  refine ⟨Interpolator.mk images (images.length - 1) 1 0, hp,
    Interpolator.mk images (images.length - 1 + 1) 1 0, ?_⟩
  exact next_boundary_done images 0 (images.length - 1) 1 (Nat.zero_le 1)
    (List.getElem?_eq_none (by omega))

theorem C9_witness :
    2 ≤ [blackImage, whiteImage].length ∧
      ∃ st, produce (Interpolator.new [blackImage, whiteImage] 0)
          ([blackImage, whiteImage].length - 1) =
        some ([blackImage, whiteImage].tail, st) ∧
        ∃ st2, st.next = NextResult.done st2 :=
  ⟨by norm_num, C9_zero_steps (by norm_num)⟩

/-- For a representable `mu` in `[0,1)` the code's fractional-part step is
the identity, so `t2 = mu` exactly. -/
lemma fsub_ftrunc_self {mu : ℚ} (hrep : roundF64 mu = mu) (h0 : 0 ≤ mu)
    (h1 : mu < 1) : fsub mu (ftrunc mu) = mu := by
  have htr : ftrunc mu = 0 := by
    unfold ftrunc
    rw [if_neg (not_lt.mpr h0), rat_floor_eq,
      Int.floor_eq_zero_iff.mpr (Set.mem_Ico.mpr ⟨h0, h1⟩)]
    simp
  rw [htr, fsub, sub_zero, hrep]

/-- C5 counterexample: at `mu = 1.0` the implementation returns the first
pixel, not the second — `mu - mu.trunc()` collapses `1.0` to `0.0`. -/
theorem C5_counterexample :
    smooth 1 (Pixel.mk 0 0 0) (Pixel.mk 255 255 255) = Pixel.mk 0 0 0 ∧
      Pixel.mk 0 0 0 ≠ Pixel.mk 255 255 255 := by
  with_unfolding_all decide

/-- C5 (amended): for every representable fraction `mu` in the half-open
range `[0,1)` and all pixels, `smooth` computes each channel as the
spec's formula `a*(1-mu) + b*mu` — evaluated in binary64 and truncated to
`u8`.  (At `mu = 1.0` the fractional-part step makes the function return
`a` instead of `b`, as the counterexample shows.) -/
theorem C5_smooth_formula {mu : ℚ} (c1 c2 : Pixel)
    (hrep : roundF64 mu = mu) (h0 : 0 ≤ mu) (h1 : mu < 1) :
    smooth mu c1 c2 = smoothSpec mu c1 c2 := by
  unfold smooth smoothSpec
  rw [fsub_ftrunc_self hrep h0 h1]

theorem C5_witness :
    roundF64 (mkRat 1 2) = mkRat 1 2 ∧ (0:ℚ) ≤ mkRat 1 2 ∧ mkRat 1 2 < 1 ∧
      smooth (mkRat 1 2) (Pixel.mk 0 0 0) (Pixel.mk 255 255 255) =
        smoothSpec (mkRat 1 2) (Pixel.mk 0 0 0) (Pixel.mk 255 255 255) :=
  ⟨by with_unfolding_all decide, by with_unfolding_all decide,
    by with_unfolding_all decide,
    C5_smooth_formula _ _ (by with_unfolding_all decide)
      (by with_unfolding_all decide) (by with_unfolding_all decide)⟩

/-- C6 counterexample: with `width = height = 2^16` and an empty pixel
buffer the `u32` product wraps to `0`, so construction succeeds although
`data.len() ≠ width * height` as mathematical integers. -/
theorem C6_counterexample :
    Image.new_from_parts [] 65536 65536 =
      Except.ok { data := [], width := 65536, height := 65536 } ∧
      (List.length ([] : List Pixel) ≠ 65536 * 65536) := by
  constructor
  · simp [Image.new_from_parts]
  · decide

/-- C6 (amended): `new_from_parts` fails exactly when `data.len()` and
`width * height` differ modulo `2^32` — the comparison is performed in
`u32` — and every constructed image satisfies the invariant only modulo
`2^32`.  (When both sides are below `2^32` this coincides with the exact
equality the claim states.) -/
theorem C6_construct_mod_u32 (data : List Pixel) (w h : ℕ)
    (hw : w < 2 ^ 32) (hh : h < 2 ^ 32) :
    ((Image.new_from_parts data w h).isOk = true ↔
      data.length % 2 ^ 32 = w * h % 2 ^ 32) ∧
    (∀ img, Image.new_from_parts data w h = Except.ok img →
      img.data = data ∧ img.width = w ∧ img.height = h ∧
        img.data.length % 2 ^ 32 = img.width * img.height % 2 ^ 32) := by
  constructor
  · unfold Image.new_from_parts
    by_cases hc : data.length % 2 ^ 32 = w * h % 2 ^ 32
    · rw [if_pos hc]
      exact iff_of_true rfl hc
    · rw [if_neg hc]
      exact iff_of_false (by simp [Except.isOk, Except.toBool]) hc
  · intro img himg
    unfold Image.new_from_parts at himg
    by_cases hc : data.length % 2 ^ 32 = w * h % 2 ^ 32
    · rw [if_pos hc] at himg
      cases himg
      exact ⟨rfl, rfl, rfl, hc⟩
    · rw [if_neg hc] at himg
      cases himg

theorem C6_witness :
    2 < 2 ^ 32 ∧ 2 < 2 ^ 32 ∧
      (((Image.new_from_parts (List.replicate 4 ⟨0, 0, 0⟩) 2 2).isOk = true ↔
        (List.replicate (4 : ℕ) (Pixel.mk 0 0 0)).length % 2 ^ 32 =
          2 * 2 % 2 ^ 32) ∧
      (∀ img, Image.new_from_parts (List.replicate 4 ⟨0, 0, 0⟩) 2 2 =
          Except.ok img →
        img.data = List.replicate 4 ⟨0, 0, 0⟩ ∧ img.width = 2 ∧
          img.height = 2 ∧
          img.data.length % 2 ^ 32 = img.width * img.height % 2 ^ 32)) :=
  ⟨by norm_num, by norm_num,
    C6_construct_mod_u32 (List.replicate 4 ⟨0, 0, 0⟩) 2 2 (by norm_num)
      (by norm_num)⟩

/-! ## Error bounds for the rounding model

These lemmas bound how far `roundF64` can move its argument; they are the
substance behind the amended form of the blend-idempotence claim. -/

lemma log2fuel_spec : ∀ fuel n, 1 ≤ n → n ≤ fuel →
    2 ^ log2fuel fuel n ≤ n ∧ n < 2 ^ (log2fuel fuel n + 1)
  | 0, n, h1, h2 => absurd (le_trans h1 h2) (by omega)
  | fuel + 1, n, h1, h2 => by
    by_cases hn : n < 2
    · have hn1 : n = 1 := by omega
      subst hn1
      constructor
      · simp [log2fuel]
      · simp [log2fuel]
    · have hrec := log2fuel_spec fuel (n / 2) (by omega) (by omega)
      obtain ⟨hl, hu⟩ := hrec
      simp only [log2fuel, if_neg hn]
      have e1 : (2:ℕ) ^ (log2fuel fuel (n / 2) + 1) =
          2 ^ log2fuel fuel (n / 2) * 2 := pow_succ 2 _
      have e2 : (2:ℕ) ^ (log2fuel fuel (n / 2) + 1 + 1) =
          2 ^ (log2fuel fuel (n / 2) + 1) * 2 := pow_succ 2 _
      constructor
      · omega
      · omega

lemma nlog2_spec (n : ℕ) (hn : 1 ≤ n) :
    2 ^ nlog2 n ≤ n ∧ n < 2 ^ (nlog2 n + 1) :=
  log2fuel_spec n n hn le_rfl

lemma pow2z_eq_zpow (e : ℤ) : pow2z e = (2:ℚ) ^ e := by
  unfold pow2z
  by_cases h : 0 ≤ e
  · rw [if_pos h]
    rw [show ((2 ^ e.toNat : ℕ) : ℚ) = (2:ℚ) ^ e.toNat by push_cast; ring]
    rw [← zpow_natCast (2:ℚ) e.toNat, Int.toNat_of_nonneg h]
  · rw [if_neg h]
    rw [Rat.mkRat_eq_div]
    push_cast
    rw [show ((2:ℚ) ^ (-e).toNat) = (2:ℚ) ^ (((-e).toNat : ℕ) : ℤ) from
      (zpow_natCast _ _).symm]
    rw [Int.toNat_of_nonneg (by omega), one_div, ← zpow_neg, neg_neg]

lemma pow2z_pos (e : ℤ) : (0:ℚ) < pow2z e := by
  rw [pow2z_eq_zpow]
  exact zpow_pos (by norm_num) e

lemma qdiv_eq_div (x y : ℚ) : qdiv x y = x / y := by
  unfold qdiv
  rw [Rat.divInt_eq_div]
  by_cases hy : y = 0
  · subst hy
    simp
  · have hxden : ((x.den : ℚ)) ≠ 0 := Nat.cast_ne_zero.mpr x.den_nz
    have hyden : ((y.den : ℚ)) ≠ 0 := Nat.cast_ne_zero.mpr y.den_nz
    have hynum : ((y.num : ℚ)) ≠ 0 := by
      exact_mod_cast Rat.num_ne_zero.mpr hy
    have hden : (((x.den * y.num : ℤ)) : ℚ) ≠ 0 := by
      push_cast
      exact mul_ne_zero hxden hynum
    have ex : (x.num : ℚ) = x * x.den := by
      have hx := Rat.num_div_den x
      rwa [div_eq_iff hxden] at hx
    have ey : (y.num : ℚ) = y * y.den := by
      have hyq := Rat.num_div_den y
      rwa [div_eq_iff hyden] at hyq
    rw [div_eq_div_iff hden hy]
    push_cast
    rw [ex, ey]
    ring

lemma qexp_le {q : ℚ} (hq : 0 < q) : pow2z (qexp q) ≤ q := by
  have hnum : 0 < q.num := Rat.num_pos.mpr hq
  have ha : 1 ≤ q.num.natAbs := Int.natAbs_pos.mpr (ne_of_gt hnum)
  have hb : 1 ≤ q.den := q.pos
  obtain ⟨hal, hau⟩ := nlog2_spec q.num.natAbs ha
  obtain ⟨hbl, hbu⟩ := nlog2_spec q.den hb
  unfold qexp
  by_cases hcond : pow2z ((nlog2 q.num.natAbs : ℤ) - (nlog2 q.den : ℤ)) ≤ q
  · rwa [if_pos hcond]
  · rw [if_neg hcond, pow2z_eq_zpow]
    have hcast : ((q.num.natAbs : ℕ) : ℚ) = (q.num : ℚ) := by
      rw [Int.cast_natAbs, abs_of_pos hnum]
    have h1 : ((2 ^ nlog2 q.num.natAbs : ℕ) : ℚ) ≤ (q.num : ℚ) := by
      rw [← hcast]
      exact_mod_cast hal
    have h2 : (q.den : ℚ) ≤ ((2 ^ (nlog2 q.den + 1) : ℕ) : ℚ) :=
      Nat.cast_le.mpr hbu.le
    have e : (2:ℚ) ^ ((nlog2 q.num.natAbs : ℤ) - (nlog2 q.den : ℤ) - 1) =
        ((2 ^ nlog2 q.num.natAbs : ℕ) : ℚ) /
          ((2 ^ (nlog2 q.den + 1) : ℕ) : ℚ) := by
      push_cast
      rw [← zpow_natCast (2:ℚ) (nlog2 q.num.natAbs),
        ← zpow_natCast (2:ℚ) (nlog2 q.den + 1),
        ← zpow_sub₀ (show (2:ℚ) ≠ 0 by norm_num)]
      congr 1
      push_cast
      ring
    rw [e]
    conv_rhs => rw [← Rat.num_div_den q]
    rw [div_le_div_iff₀ (by positivity) (by positivity)]
    have hp1 : (0:ℚ) ≤ (q.den : ℚ) := by positivity
    have hp2 : (0:ℚ) ≤ (q.num : ℚ) := by exact_mod_cast hnum.le
    calc ((2 ^ nlog2 q.num.natAbs : ℕ) : ℚ) * (q.den : ℚ)
        ≤ (q.num : ℚ) * ((2 ^ (nlog2 q.den + 1) : ℕ) : ℚ) :=
          mul_le_mul h1 h2 hp1 hp2
      _ = _ := rfl

lemma rne_nonneg {r : ℚ} (h : 0 ≤ r) : 0 ≤ rne r := by
  unfold rne
  dsimp only
  have hf : 0 ≤ r.floor := by
    rw [rat_floor_eq]
    exact Int.floor_nonneg.mpr h
  split_ifs <;> omega

/-- Rounding to the nearest integer moves a rational by at most `1/2`. -/
lemma rne_abs_le (r : ℚ) : |(rne r : ℚ) - r| ≤ 1 / 2 := by
  unfold rne
  have h05 : mkRat 1 2 = (1 : ℚ) / 2 := by
    rw [Rat.mkRat_eq_div]
    norm_num
  have hfl : ((r.floor : ℤ) : ℚ) ≤ r := by
    rw [rat_floor_eq]
    exact Int.floor_le r
  have hfu : r < ((r.floor : ℤ) : ℚ) + 1 := by
    rw [rat_floor_eq]
    exact Int.lt_floor_add_one r
  rw [h05]
  dsimp only
  split_ifs with h1 h2 h3
  · rw [abs_sub_comm, abs_of_nonneg (by linarith)]
    linarith
  · push_cast
    rw [abs_of_nonneg (by linarith)]
    linarith
  · rw [abs_sub_comm, abs_of_nonneg (by linarith)]
    linarith
  · push_cast
    rw [abs_of_nonneg (by linarith)]
    linarith

lemma roundF64_nonneg {q : ℚ} (h : 0 ≤ q) : 0 ≤ roundF64 q := by
  unfold roundF64
  by_cases hq0 : q = 0
  · rw [if_pos hq0]
  · rw [if_neg hq0, if_neg (not_lt.mpr h), if_neg (not_lt.mpr h)]
    dsimp only
    rw [one_mul]
    have h1 : 0 ≤ qdiv q (pow2z (max (qexp q) (-1022) - 52)) := by
      rw [qdiv_eq_div]
      exact div_nonneg h (pow2z_pos _).le
    exact mul_nonneg (by exact_mod_cast rne_nonneg h1) (pow2z_pos _).le

/-- The fundamental error bound: rounding a nonnegative rational below
`2^E` moves it by at most `2^E / 2^54` (half the largest grid step that
can occur below `2^E`). -/
lemma roundF64_err {q : ℚ} (E : ℕ) (h0 : 0 ≤ q) (hE : q < (2:ℚ) ^ E) :
    |roundF64 q - q| ≤ (2:ℚ) ^ E / 2 ^ 54 := by
  rcases eq_or_lt_of_le h0 with heq | hpos
  · rw [← heq, roundF64_zero]
    simp
    positivity
  · have hq0 : q ≠ 0 := ne_of_gt hpos
    unfold roundF64
    rw [if_neg hq0, if_neg (not_lt.mpr h0), if_neg (not_lt.mpr h0)]
    dsimp only
    rw [one_mul]
    set g := max (qexp q) (-1022) - 52 with hg
    have hp : (0:ℚ) < pow2z g := pow2z_pos g
    rw [qdiv_eq_div]
    have key : (rne (q / pow2z g) : ℚ) * pow2z g - q =
        ((rne (q / pow2z g) : ℚ) - q / pow2z g) * pow2z g := by
      field_simp
    rw [key, abs_mul, abs_of_pos hp]
    have h1 : |(rne (q / pow2z g) : ℚ) - q / pow2z g| ≤ 1 / 2 :=
      rne_abs_le _
    have hgle : g ≤ (E:ℤ) - 53 := by
      have hexp : qexp q < (E:ℤ) := by
        have hle : (2:ℚ) ^ qexp q ≤ q := by
          have := qexp_le hpos
          rwa [pow2z_eq_zpow] at this
        have hlt : (2:ℚ) ^ qexp q < (2:ℚ) ^ ((E:ℕ) : ℤ) := by
          rw [zpow_natCast]
          exact lt_of_le_of_lt hle hE
        exact (zpow_lt_zpow_iff_right₀ (by norm_num)).mp hlt
      omega
    have hple : pow2z g ≤ (2:ℚ) ^ ((E:ℤ) - 53) := by
      rw [pow2z_eq_zpow]
      exact zpow_le_zpow_right₀ (by norm_num) hgle
    calc |(rne (q / pow2z g) : ℚ) - q / pow2z g| * pow2z g
        ≤ 1 / 2 * (2:ℚ) ^ ((E:ℤ) - 53) :=
          mul_le_mul h1 hple hp.le (by norm_num)
      _ = (2:ℚ) ^ E / 2 ^ 54 := by
          rw [zpow_sub₀ (show (2:ℚ) ≠ 0 by norm_num), zpow_natCast]
          rw [show ((2:ℚ) ^ (53:ℤ)) = (2:ℚ) ^ (53:ℕ) from zpow_natCast 2 53]
          rw [show ((2:ℚ) ^ (54:ℕ)) = 2 * (2:ℚ) ^ (53:ℕ) by
            rw [← pow_succ']]
          have h53 : ((2:ℚ) ^ (53:ℕ)) ≠ 0 := by positivity
          field_simp

/-- Blending a channel with itself moves it by at most one ulp of the
`u8` grid: the result is `x` or `x - 1`.  (It can genuinely be `x - 1`:
three rounding errors can conspire to land just below the integer.) -/
lemma chan_blend_self {mu : ℚ} (hrep : roundF64 mu = mu) (h0 : 0 ≤ mu)
    (h1 : mu < 1) (x : U8) :
    f64toU8 (fadd (fmul ((x:ℕ):ℚ) (fsub 1 mu)) (fmul ((x:ℕ):ℚ) mu)) = x ∨
    ((f64toU8 (fadd (fmul ((x:ℕ):ℚ) (fsub 1 mu)) (fmul ((x:ℕ):ℚ) mu)) : ℕ))
      + 1 = (x:ℕ) := by
  have hx0 : (0:ℚ) ≤ ((x:ℕ):ℚ) := by positivity
  have hx255n : (x:ℕ) ≤ 255 := Nat.le_of_lt_succ x.isLt
  have hx255 : ((x:ℕ):ℚ) ≤ 255 := by exact_mod_cast hx255n
  set xq : ℚ := ((x:ℕ):ℚ) with hxq
  clear_value xq
  set u : ℚ := (2:ℚ) ^ (10:ℕ) / 2 ^ 54 with hu
  have hval : u ≤ 1 / 1000 := by rw [hu]; norm_num
  have hupos : 0 ≤ u := by rw [hu]; positivity
  have h2p10 : (2:ℚ) ^ (10:ℕ) = 1024 := by norm_num
  clear_value u
  -- t1 = fl(1 - mu)
  have ht1e : |fsub 1 mu - (1 - mu)| ≤ u := by
    rw [fsub, hu]
    apply roundF64_err 10 (by linarith)
    rw [h2p10]
    linarith
  have ht1nn : 0 ≤ fsub 1 mu := by
    rw [fsub]
    exact roundF64_nonneg (by linarith)
  set t1 : ℚ := fsub 1 mu with ht1
  clear_value t1
  obtain ⟨ht1l, ht1u⟩ := abs_le.mp ht1e
  have ht1ub : t1 ≤ 2 := by linarith
  have hmul1 : xq * t1 ≤ 510 := by
    have hb := mul_le_mul hx255 ht1ub ht1nn (show (0:ℚ) ≤ 255 by norm_num)
    linarith
  have hmul2 : xq * mu ≤ 255 := by
    have hb := mul_le_mul hx255 h1.le h0 (show (0:ℚ) ≤ 255 by norm_num)
    linarith
  -- p1 = fl(x * t1)
  have hp1e : |fmul xq t1 - xq * t1| ≤ u := by
    rw [fmul, hu]
    apply roundF64_err 10 (mul_nonneg hx0 ht1nn)
    rw [h2p10]
    linarith
  have hp1nn : 0 ≤ fmul xq t1 := by
    rw [fmul]
    exact roundF64_nonneg (mul_nonneg hx0 ht1nn)
  set p1 : ℚ := fmul xq t1 with hp1
  clear_value p1
  obtain ⟨hp1l, hp1u⟩ := abs_le.mp hp1e
  -- p2 = fl(x * mu)
  have hp2e : |fmul xq mu - xq * mu| ≤ u := by
    rw [fmul, hu]
    apply roundF64_err 10 (mul_nonneg hx0 h0)
    rw [h2p10]
    linarith
  have hp2nn : 0 ≤ fmul xq mu := by
    rw [fmul]
    exact roundF64_nonneg (mul_nonneg hx0 h0)
  set p2 : ℚ := fmul xq mu with hp2
  clear_value p2
  obtain ⟨hp2l, hp2u⟩ := abs_le.mp hp2e
  -- s = fl(p1 + p2)
  have hse : |fadd p1 p2 - (p1 + p2)| ≤ u := by
    rw [fadd, hu]
    apply roundF64_err 10 (add_nonneg hp1nn hp2nn)
    rw [h2p10]
    linarith
  set s : ℚ := fadd p1 p2 with hs
  clear_value s
  obtain ⟨hsl, hsu⟩ := abs_le.mp hse
  -- total deviation from the exact value x
  have hdelta : |xq * t1 + xq * mu - xq| ≤ 255 * u := by
    have he : xq * t1 + xq * mu - xq = xq * (t1 - (1 - mu)) := by ring
    rw [he, abs_mul, abs_of_nonneg hx0]
    exact mul_le_mul hx255 ht1e (abs_nonneg _) (by norm_num)
  obtain ⟨hdl, hdu⟩ := abs_le.mp hdelta
  have hslo : xq - 1 / 2 ≤ s := by linarith
  have hshi : s < xq + 1 / 2 := by linarith
  rw [hxq] at hslo hshi
  -- truncate and saturate
  unfold f64toU8
  by_cases hneg : s < 0
  · rw [if_pos hneg]
    left
    have hxz : (x:ℕ) = 0 := by
      have hq : ((x:ℕ):ℚ) < 1 := by linarith
      have hq2 : (x:ℕ) < 1 := by exact_mod_cast hq
      omega
    exact Fin.ext (by simpa using hxz.symm)
  · rw [if_neg hneg]
    have hsnn : 0 ≤ s := not_lt.mp hneg
    have hf0 : 0 ≤ ⌊s⌋ := Int.floor_nonneg.mpr hsnn
    have hfuu : ⌊s⌋ < ((x:ℕ):ℤ) + 1 := by
      apply Int.floor_lt.mpr
      push_cast
      linarith
    have hfll : ((x:ℕ):ℤ) - 1 ≤ ⌊s⌋ := by
      apply Int.le_floor.mpr
      push_cast
      linarith
    have hre : Rat.floor s = ⌊s⌋ := rat_floor_eq s
    have hdis : min 255 (Rat.floor s).toNat = (x:ℕ) ∨
        min 255 (Rat.floor s).toNat + 1 = (x:ℕ) := by
      rw [hre]
      omega
    rcases hdis with hv | hv
    · left
      exact Fin.ext (by simpa using hv)
    · right
      simpa using hv

/-- C10 counterexample: at the representable fraction
`mu = 5404319552844595 / 2^54` (the binary64 value nearest `0.3`),
blending the uniform pixel `(202,202,202)` with itself yields
`(201,201,201)`: the subtraction `1.0 - t2` ties downward and both
products round down, pushing the sum below `202`. -/
theorem C10_counterexample :
    (0:ℚ) ≤ mkRat 5404319552844595 (2 ^ 54) ∧
    mkRat 5404319552844595 (2 ^ 54) < 1 ∧
    roundF64 (mkRat 5404319552844595 (2 ^ 54)) =
      mkRat 5404319552844595 (2 ^ 54) ∧
    smooth (mkRat 5404319552844595 (2 ^ 54))
        (Pixel.mk 202 202 202) (Pixel.mk 202 202 202) =
      Pixel.mk 201 201 201 ∧
    Pixel.mk 201 201 201 ≠ Pixel.mk 202 202 202 :=
  ⟨by with_unfolding_all decide, by with_unfolding_all decide,
    Rat.ext (by with_unfolding_all decide) (by with_unfolding_all decide),
    by with_unfolding_all decide, by with_unfolding_all decide⟩

/-- C10 (amended): blending a pixel with an identical pixel is the
identity only up to one unit of truncation: for every representable
fraction `mu` in `[0,1)` each channel of `smooth(mu, a, a)` equals the
corresponding channel of `a` or falls short of it by exactly one.  (The
counterexample shows the off-by-one case is realised, so exact identity
— as originally claimed — is false.) -/
theorem C10_blend_self_within_one {mu : ℚ} (a : Pixel)
    (hrep : roundF64 mu = mu) (h0 : 0 ≤ mu) (h1 : mu < 1) :
    ((smooth mu a a).r = a.r ∨ ((smooth mu a a).r : ℕ) + 1 = (a.r : ℕ)) ∧
    ((smooth mu a a).g = a.g ∨ ((smooth mu a a).g : ℕ) + 1 = (a.g : ℕ)) ∧
    ((smooth mu a a).b = a.b ∨ ((smooth mu a a).b : ℕ) + 1 = (a.b : ℕ)) := by
  unfold smooth
  dsimp only
  rw [fsub_ftrunc_self hrep h0 h1]
  exact ⟨chan_blend_self hrep h0 h1 a.r, chan_blend_self hrep h0 h1 a.g,
    chan_blend_self hrep h0 h1 a.b⟩

theorem C10_witness :
    roundF64 (mkRat 5404319552844595 (2 ^ 54)) =
        mkRat 5404319552844595 (2 ^ 54) ∧
    (0:ℚ) ≤ mkRat 5404319552844595 (2 ^ 54) ∧
    mkRat 5404319552844595 (2 ^ 54) < 1 ∧
    (((smooth (mkRat 5404319552844595 (2 ^ 54))
        (Pixel.mk 202 202 202) (Pixel.mk 202 202 202)).r =
          (Pixel.mk 202 202 202).r ∨
      ((smooth (mkRat 5404319552844595 (2 ^ 54))
        (Pixel.mk 202 202 202) (Pixel.mk 202 202 202)).r : ℕ) + 1 =
          ((Pixel.mk 202 202 202).r : ℕ)) ∧
    ((smooth (mkRat 5404319552844595 (2 ^ 54))
        (Pixel.mk 202 202 202) (Pixel.mk 202 202 202)).g =
          (Pixel.mk 202 202 202).g ∨
      ((smooth (mkRat 5404319552844595 (2 ^ 54))
        (Pixel.mk 202 202 202) (Pixel.mk 202 202 202)).g : ℕ) + 1 =
          ((Pixel.mk 202 202 202).g : ℕ)) ∧
    ((smooth (mkRat 5404319552844595 (2 ^ 54))
        (Pixel.mk 202 202 202) (Pixel.mk 202 202 202)).b =
          (Pixel.mk 202 202 202).b ∨
      ((smooth (mkRat 5404319552844595 (2 ^ 54))
        (Pixel.mk 202 202 202) (Pixel.mk 202 202 202)).b : ℕ) + 1 =
          ((Pixel.mk 202 202 202).b : ℕ))) :=
  ⟨Rat.ext (by with_unfolding_all decide) (by with_unfolding_all decide),
    by with_unfolding_all decide, by with_unfolding_all decide,
    C10_blend_self_within_one (Pixel.mk 202 202 202)
      (Rat.ext (by with_unfolding_all decide) (by with_unfolding_all decide))
      (by with_unfolding_all decide) (by with_unfolding_all decide)⟩

end Interpol
